import Mathlib

/-!
Shallow embedding of `moji_namer/moji_namer.py` and verification of its
specification. Python strings are modelled as `List Char`; the filesystem
directory is modelled as the finite list of entry names it contains; the
external naming service is an arbitrary function from a source file name to
either an error message or a suggested text.
-/

namespace MojiNamer

/-- Python strings, modelled as lists of characters. -/
abbrev PyStr := List Char

/-- Characters treated as whitespace by Python's `str.strip()` and by `\s`
in a `str`-pattern regular expression (ASCII whitespace plus the Unicode
space separators). -/
def pySpace (c : Char) : Bool :=
  let n := c.toNat
  n = 32 || (9 ≤ n && n ≤ 13) || (28 ≤ n && n ≤ 31) || n = 133 || n = 160 ||
  n = 0x1680 || (0x2000 ≤ n && n ≤ 0x200a) || n = 0x2028 || n = 0x2029 ||
  n = 0x202f || n = 0x205f || n = 0x3000

/-- Python `text.strip(chars)` for a character predicate: drop matching
characters from both ends. -/
def pyStrip (p : Char → Bool) (l : PyStr) : PyStr :=
  ((l.dropWhile p).reverse.dropWhile p).reverse

/-- The character class kept by `re.sub(r"[^a-z0-9_\-\s]+", "", text)`:
lowercase ASCII letters, digits, underscore, hyphen and whitespace. -/
def keepChar (c : Char) : Bool :=
  ('a' ≤ c && c ≤ 'z') || ('0' ≤ c && c ≤ '9') || c = '_' || c = '-' || pySpace c

/-- Helper for `subRuns`: the flag records whether the previous character
was part of a run matching `p` (in which case the replacement character has
already been emitted for that run). -/
def subRunsAux (p : Char → Bool) (r : Char) : Bool → PyStr → PyStr
  | _, [] => []
  | inRun, c :: cs =>
      if p c then
        if inRun then subRunsAux p r true cs
        else r :: subRunsAux p r true cs
      else c :: subRunsAux p r false cs

/-- Substitution of every maximal run of characters matching `p` by the single
character `r` (models `re.sub(r"[\s\-]+", "_", text)` and
`re.sub(r"_+", "_", text)`). -/
def subRuns (p : Char → Bool) (r : Char) (l : PyStr) : PyStr :=
  subRunsAux p r false l

/-- The class `[\s\-]` of the second substitution in `sanitize_to_slug`. -/
def spaceHyphen (c : Char) : Bool := pySpace c || c = '-'

/-- Underscore predicate, for the run-collapsing and stripping steps. -/
def underscore (c : Char) : Bool := c = '_'

/-- The slug produced by `sanitize_to_slug` before the final truncation
`text[:max_length]`: lowercase and trim, delete disallowed characters,
turn whitespace/hyphen runs into single underscores, collapse underscore
runs, strip outer underscores, and fall back to `"image"` if empty. -/
def slugCore (text : PyStr) : PyStr :=
  let t1 := pyStrip pySpace text
  let t2 := t1.map Char.toLower
  let t3 := t2.filter keepChar
  let t4 := subRuns spaceHyphen '_' t3
  let t5 := subRuns underscore '_' t4
  let t6 := pyStrip underscore t5
  if t6 = [] then "image".toList else t6

/-- Function `sanitize_to_slug(text, max_length)` from the source: the core slug
truncated to `max_length` characters. -/
def sanitize_to_slug (text : PyStr) (max_length : Nat := 40) : PyStr :=
  (slugCore text).take max_length

/-- Decimal rendering of a natural number (Python `str(counter)`), with
structural fuel; `fuel = n + 1` always suffices. -/
def natDecimalAux : Nat → Nat → PyStr
  | 0, _ => []
  | fuel + 1, n =>
      if n < 10 then [Nat.digitChar n]
      else natDecimalAux fuel (n / 10) ++ [Nat.digitChar (n % 10)]

/-- Decimal rendering of a natural number, most significant digit first. -/
def natDecimal (n : Nat) : PyStr := natDecimalAux (n + 1) n

/-- The candidate name `f"{base_name}-{counter}{extension}"` probed by
`make_unique_path`. -/
def suffixName (base ext : PyStr) (k : Nat) : PyStr :=
  base ++ '-' :: (natDecimal k ++ ext)

/-- The `while candidate.exists()` loop of `make_unique_path`, with fuel:
probe `{base}-{k}{ext}`, `{base}-{k+1}{ext}`, … until a name is not an
entry of the directory. -/
def probeFrom (occupied : List PyStr) (base ext : PyStr) : Nat → Nat → PyStr
  | 0, k => suffixName base ext k
  | fuel + 1, k =>
      if suffixName base ext k ∈ occupied then probeFrom occupied base ext fuel (k + 1)
      else suffixName base ext k

/-- The index at which `probeFrom` stops. -/
def probeIdx (occupied : List PyStr) (base ext : PyStr) : Nat → Nat → Nat
  | 0, k => k
  | fuel + 1, k =>
      if suffixName base ext k ∈ occupied then probeIdx occupied base ext fuel (k + 1)
      else k

/-- Function `make_unique_path(directory, base_name, extension)` from the source.
The directory is modelled by the list `occupied` of entry names it
contains; `candidate.exists()` becomes membership in that list. The fuel
`occupied.length + 1` is sufficient because at most `occupied.length`
probed names can be occupied. -/
def make_unique_path (occupied : List PyStr) (base ext : PyStr) : PyStr :=
  if base ++ ext ∈ occupied then
    probeFrom occupied base ext (occupied.length + 1) 1
  else base ++ ext

/-! ### The orchestrator (`main`) -/

/-- One line printed by `main`, by tag. -/
inductive LogLine where
  | skipApi (src err : PyStr)
  | skipEmpty (src : PyStr)
  | keep (src : PyStr)
  | plan (src dest : PyStr)
  | renamed (src dest : PyStr)
  deriving DecidableEq

/-- The source file name a log line reports on. -/
def LogLine.src : LogLine → PyStr
  | .skipApi s _ => s
  | .skipEmpty s => s
  | .keep s => s
  | .plan s _ => s
  | .renamed s _ => s

/-- Model of `pathlib.Path.suffix`: the last dot-suffix of a name, empty unless the
last dot is neither the first nor the last character. -/
def pySuffix (name : PyStr) : PyStr :=
  match name.reverse.findIdx? (fun c => c = '.') with
  | none => []
  | some j =>
      let i := name.length - 1 - j
      if 0 < i && i < name.length - 1 then name.drop i else []

/-- Expression `src.suffix.lower()` as used when building the destination path. -/
def pySuffixLower (name : PyStr) : PyStr := (pySuffix name).map Char.toLower

/-- One `glob` pattern `*.{ext}` applied to an entry name: the name must
end in the literal suffix and, since `*` never matches a leading dot, must
not start with `.`. Matching is case-sensitive. -/
def globMatches (name suffix : PyStr) : Bool :=
  (match name with
   | [] => false
   | c :: _ => !(c = '.')) && suffix.isSuffixOf name

/-- The fixed pattern suffixes `["*.png", "*.jpg", "*.jpeg", "*.webp"]`. -/
def patternSuffixes : List PyStr :=
  [".png".toList, ".jpg".toList, ".jpeg".toList, ".webp".toList]

/-- Whether an entry name is collected by the pattern loop of `main`. -/
def matchesPatterns (name : PyStr) : Bool :=
  patternSuffixes.any (globMatches name)

/-- Code-point comparison of Python strings, as used by `sorted`. -/
def strLe : PyStr → PyStr → Bool
  | [], _ => true
  | _ :: _, [] => false
  | a :: as, b :: bs =>
      if a.toNat < b.toNat then true
      else if b.toNat < a.toNat then false
      else strLe as bs

/-- Insert into a sorted list (helper for `sortNames`). -/
def insertSorted (x : PyStr) : List PyStr → List PyStr
  | [] => [x]
  | y :: ys => if strLe x y then x :: y :: ys else y :: insertSorted x ys

/-- Model of `sorted(picture_paths)`: insertion sort under code-point order. -/
def sortNames : List PyStr → List PyStr
  | [] => []
  | x :: xs => insertSorted x (sortNames xs)

/-- The naming service (`request_image_name` with its client): maps a
source file name to either a raised error or the suggested text. -/
abbrev Service := PyStr → Except PyStr PyStr

/-- Effect of `os.rename(src, dest)` on the directory listing. -/
def renameFs (fs : List PyStr) (src dest : PyStr) : List PyStr :=
  fs.erase src ++ [dest]

/-- One iteration of the `for picture in sorted(picture_paths)` loop:
returns the log lines printed, the directory listing afterwards, and
whether an exception was re-raised (aborting the run). -/
def processOne (dryRun : Bool) (service : Service) (fs : List PyStr)
    (src : PyStr) : List LogLine × List PyStr × Bool :=
  match service src with
  | .error e => ([.skipApi src e], fs, true)
  | .ok suggested =>
      let slug := sanitize_to_slug suggested 40
      if slug = [] then ([.skipEmpty src], fs, false)
      else
        let dest := make_unique_path fs slug (pySuffixLower src)
        if dest = src then ([.keep src], fs, false)
        else if dryRun then ([.plan src dest], fs, false)
        else ([.renamed src dest], renameFs fs src dest, false)

/-- The whole loop of `main` over the sorted picture list. -/
def runLoop (dryRun : Bool) (service : Service) :
    List PyStr → List PyStr → List LogLine × List PyStr × Bool
  | fs, [] => ([], fs, false)
  | fs, src :: rest =>
      let step := processOne dryRun service fs src
      if step.2.2 then step
      else
        let next := runLoop dryRun service step.2.1 rest
        (step.1 ++ next.1, next.2)

/-- Function `main(directory, model, dry_run)` on a directory whose entries are
`listing`: glob the four patterns, sort, and process each picture. -/
def mainRun (dryRun : Bool) (service : Service) (listing : List PyStr) :
    List LogLine × List PyStr × Bool :=
  runLoop dryRun service listing (sortNames (listing.filter matchesPatterns))

/-! ### Lemmas about the sanitizer -/

/-- The character class of the slug invariant: lowercase ASCII letters,
digits and underscore. -/
def allowedChar (c : Char) : Bool :=
  ('a' ≤ c && c ≤ 'z') || ('0' ≤ c && c ≤ '9') || c = '_'

theorem mem_subRunsAux {p : Char → Bool} {r : Char} (l : PyStr) :
    ∀ (b : Bool) (c : Char), c ∈ subRunsAux p r b l →
      c = r ∨ (c ∈ l ∧ p c = false) := by
  induction l with
  | nil => intro b c h; simp [subRunsAux] at h
  | cons a as ih =>
      intro b c h
      simp only [subRunsAux] at h
      by_cases hpa : p a
      · rw [if_pos hpa] at h
        cases b with
        | true =>
            rcases ih true c h with h | ⟨hm, hp⟩
            · exact Or.inl h
            · exact Or.inr ⟨List.mem_cons_of_mem _ hm, hp⟩
        | false =>
            rcases List.mem_cons.mp h with rfl | h
            · exact Or.inl rfl
            · rcases ih true c h with h | ⟨hm, hp⟩
              · exact Or.inl h
              · exact Or.inr ⟨List.mem_cons_of_mem _ hm, hp⟩
      · rw [if_neg hpa] at h
        rcases List.mem_cons.mp h with rfl | h
        · exact Or.inr ⟨List.mem_cons_self _ _, by simpa using hpa⟩
        · rcases ih false c h with h | ⟨hm, hp⟩
          · exact Or.inl h
          · exact Or.inr ⟨List.mem_cons_of_mem _ hm, hp⟩

theorem mem_subRuns {p : Char → Bool} {r : Char} {l : PyStr} {c : Char}
    (h : c ∈ subRuns p r l) : c = r ∨ (c ∈ l ∧ p c = false) :=
  mem_subRunsAux l false c h

theorem head?_dropWhile {p : Char → Bool} :
    ∀ {l : PyStr} {c : Char}, (List.dropWhile p l).head? = some c → p c = false := by
  intro l
  induction l with
  | nil => simp [List.dropWhile]
  | cons a as ih =>
      intro c h
      rw [List.dropWhile_cons] at h
      split at h
      · exact ih h
      · simp at h
        subst h
        simp_all

theorem mem_pyStrip {p : Char → Bool} {l : PyStr} {c : Char}
    (h : c ∈ pyStrip p l) : c ∈ l := by
  unfold pyStrip at h
  rw [List.mem_reverse] at h
  have h1 : c ∈ (List.dropWhile p l).reverse :=
    (List.dropWhile_suffix p).sublist.mem h
  rw [List.mem_reverse] at h1
  exact (List.dropWhile_suffix p).sublist.mem h1

theorem pyStrip_prefix (p : Char → Bool) (l : PyStr) :
    ∃ t, pyStrip p l ++ t = List.dropWhile p l := by
  obtain ⟨t, ht⟩ := List.dropWhile_suffix (l := (List.dropWhile p l).reverse) p
  refine ⟨t.reverse, ?_⟩
  unfold pyStrip
  calc ((l.dropWhile p).reverse.dropWhile p).reverse ++ t.reverse
      = (t ++ (l.dropWhile p).reverse.dropWhile p).reverse := by
        rw [List.reverse_append]
    _ = List.dropWhile p l := by rw [ht, List.reverse_reverse]

theorem pyStrip_head? {p : Char → Bool} {l : PyStr} {c : Char}
    (h : (pyStrip p l).head? = some c) : p c = false := by
  obtain ⟨t, ht⟩ := pyStrip_prefix p l
  have hne : pyStrip p l ≠ [] := by
    intro hnil
    rw [hnil] at h
    simp at h
  have : (List.dropWhile p l).head? = some c := by
    rw [← ht]
    cases hst : pyStrip p l with
    | nil => exact absurd hst hne
    | cons a as =>
        rw [hst] at h
        simp at h
        subst h
        simp
  exact head?_dropWhile this

theorem pyStrip_getLast? {p : Char → Bool} {l : PyStr} {c : Char}
    (h : (pyStrip p l).getLast? = some c) : p c = false := by
  unfold pyStrip at h
  rw [List.getLast?_reverse] at h
  exact head?_dropWhile h

theorem keepChar_not_spaceHyphen {c : Char} (h1 : keepChar c = true)
    (h2 : spaceHyphen c = false) : allowedChar c = true := by
  unfold keepChar at h1
  unfold spaceHyphen at h2
  unfold allowedChar
  rw [Bool.or_eq_false_iff] at h2
  obtain ⟨hsp, hhy⟩ := h2
  rw [hsp, hhy] at h1
  simpa using h1

theorem slugCore_chars {text : PyStr} {c : Char} (h : c ∈ slugCore text) :
    allowedChar c = true := by
  simp only [slugCore] at h
  split at h
  · have h2 : c ∈ (['i', 'm', 'a', 'g', 'e'] : List Char) := h
    simp only [List.mem_cons, List.not_mem_nil, or_false] at h2
    rcases h2 with rfl | rfl | rfl | rfl | rfl <;> decide
  · have h5 := mem_pyStrip h
    rcases mem_subRuns h5 with rfl | ⟨h4, hnu⟩
    · rfl
    · rcases mem_subRuns h4 with rfl | ⟨h3, hnsh⟩
      · rfl
      · exact keepChar_not_spaceHyphen (List.mem_filter.mp h3).2 hnsh

theorem slugCore_ne_nil (text : PyStr) : slugCore text ≠ [] := by
  simp only [slugCore]
  split
  · decide
  · assumption

theorem slugCore_head? {text : PyStr} {c : Char}
    (h : (slugCore text).head? = some c) : c ≠ '_' := by
  simp only [slugCore] at h
  split at h
  · have h2 : some ('i' : Char) = some c := h
    cases h2
    decide
  · intro hc
    subst hc
    have := pyStrip_head? h
    simp [underscore] at this

theorem slugCore_getLast? {text : PyStr} {c : Char}
    (h : (slugCore text).getLast? = some c) : c ≠ '_' := by
  simp only [slugCore] at h
  split at h
  · have h2 : some ('e' : Char) = some c := h
    cases h2
    decide
  · intro hc
    subst hc
    have := pyStrip_getLast? h
    simp [underscore] at this

theorem head?_take {l : PyStr} {n : Nat} (h : 0 < n) :
    (l.take n).head? = l.head? := by
  cases l with
  | nil => simp
  | cons a as =>
      cases n with
      | zero => exact absurd h (by simp)
      | succ n => simp [List.take]

theorem sanitize_ne_nil (text : PyStr) {n : Nat} (h : 0 < n) :
    sanitize_to_slug text n ≠ [] := by
  unfold sanitize_to_slug
  rw [Ne, List.take_eq_nil_iff]
  push_neg
  exact ⟨by omega, slugCore_ne_nil text⟩

/-! ### Lemmas about the path resolver -/

/-- Decoding a decimal digit string back to a number. -/
def decodeDec (cs : PyStr) : Nat :=
  cs.foldl (fun a c => a * 10 + (c.toNat - 48)) 0

theorem digitChar_val : ∀ d, d < 10 → (Nat.digitChar d).toNat - 48 = d := by
  decide

theorem decodeDec_append_singleton (l : PyStr) (c : Char) :
    decodeDec (l ++ [c]) = decodeDec l * 10 + (c.toNat - 48) := by
  unfold decodeDec
  rw [List.foldl_append]
  rfl

theorem decodeDec_natDecimalAux :
    ∀ fuel n, n < fuel → decodeDec (natDecimalAux fuel n) = n := by
  intro fuel
  induction fuel with
  | zero => intro n h; omega
  | succ fuel ih =>
      intro n h
      rw [natDecimalAux]
      split
      · simp only [decodeDec, List.foldl_cons, List.foldl_nil]
        have := digitChar_val n (by omega)
        omega
      · rw [decodeDec_append_singleton]
        have hd : n / 10 < n := Nat.div_lt_self (by omega) (by omega)
        rw [ih (n / 10) (by omega)]
        have := digitChar_val (n % 10) (Nat.mod_lt n (by omega))
        omega

theorem natDecimal_injective : Function.Injective natDecimal := by
  intro m n h
  have hm := decodeDec_natDecimalAux (m + 1) m (by omega)
  have hn := decodeDec_natDecimalAux (n + 1) n (by omega)
  unfold natDecimal at h
  rw [h] at hm
  omega

theorem suffixName_injective (base ext : PyStr) :
    Function.Injective (suffixName base ext) := by
  intro k k' h
  unfold suffixName at h
  have h1 := List.append_cancel_left h
  injection h1 with _ h2
  exact natDecimal_injective (List.append_cancel_right h2)

theorem exists_free_suffix (occupied : List PyStr) (base ext : PyStr) :
    ∃ k, 1 ≤ k ∧ k ≤ occupied.length + 1 ∧ suffixName base ext k ∉ occupied := by
  by_contra hcon
  push_neg at hcon
  have hsub : (Finset.Icc 1 (occupied.length + 1)).image (suffixName base ext) ⊆
      occupied.toFinset := by
    intro x hx
    simp only [Finset.mem_image, Finset.mem_Icc] at hx
    obtain ⟨k, ⟨h1, h2⟩, rfl⟩ := hx
    exact List.mem_toFinset.mpr (hcon k h1 h2)
  have hcard := Finset.card_le_card hsub
  rw [Finset.card_image_of_injective _ (suffixName_injective base ext),
    Nat.card_Icc] at hcard
  have := List.toFinset_card_le occupied
  omega

theorem probeFrom_eq_suffixName (occupied : List PyStr) (base ext : PyStr) :
    ∀ fuel k, probeFrom occupied base ext fuel k =
      suffixName base ext (probeIdx occupied base ext fuel k) := by
  intro fuel
  induction fuel with
  | zero => intro k; rfl
  | succ fuel ih =>
      intro k
      rw [probeFrom, probeIdx]
      split
      · exact ih (k + 1)
      · rfl

theorem probeIdx_spec (occupied : List PyStr) (base ext : PyStr) :
    ∀ fuel k, (∃ j, j < fuel ∧ suffixName base ext (k + j) ∉ occupied) →
      k ≤ probeIdx occupied base ext fuel k ∧
      suffixName base ext (probeIdx occupied base ext fuel k) ∉ occupied ∧
      ∀ j, k ≤ j → j < probeIdx occupied base ext fuel k →
        suffixName base ext j ∈ occupied := by
  intro fuel
  induction fuel with
  | zero => intro k ⟨j, hj, _⟩; omega
  | succ fuel ih =>
      intro k ⟨j, hj, hfree⟩
      rw [probeIdx]
      split
      · rename_i hmem
        have hj0 : j ≠ 0 := by
          intro h0
          rw [h0, Nat.add_zero] at hfree
          exact hfree hmem
        have hstep : ∃ j', j' < fuel ∧ suffixName base ext (k + 1 + j') ∉ occupied := by
          refine ⟨j - 1, by omega, ?_⟩
          have : k + 1 + (j - 1) = k + j := by omega
          rw [this]
          exact hfree
        obtain ⟨hle, hf, hmin⟩ := ih (k + 1) hstep
        refine ⟨by omega, hf, ?_⟩
        intro i hki hi
        rcases Nat.eq_or_lt_of_le hki with rfl | hlt
        · exact hmem
        · exact hmin i (by omega) hi
      · rename_i hmem
        exact ⟨Nat.le_refl k, hmem, fun j h1 h2 => absurd h1 (by omega)⟩

theorem make_unique_path_not_mem (occupied : List PyStr) (base ext : PyStr) :
    make_unique_path occupied base ext ∉ occupied := by
  unfold make_unique_path
  by_cases h : base ++ ext ∈ occupied
  · rw [if_pos h, probeFrom_eq_suffixName]
    obtain ⟨k, hk1, hk2, hkfree⟩ := exists_free_suffix occupied base ext
    have hex : ∃ j, j < occupied.length + 1 ∧ suffixName base ext (1 + j) ∉ occupied := by
      refine ⟨k - 1, by omega, ?_⟩
      have : 1 + (k - 1) = k := by omega
      rw [this]
      exact hkfree
    exact (probeIdx_spec occupied base ext (occupied.length + 1) 1 hex).2.1
  · rw [if_neg h]
    exact h

theorem make_unique_path_probe (occupied : List PyStr) (base ext : PyStr)
    (h : base ++ ext ∈ occupied) :
    0 < probeIdx occupied base ext (occupied.length + 1) 1 ∧
    make_unique_path occupied base ext =
      suffixName base ext (probeIdx occupied base ext (occupied.length + 1) 1) ∧
    suffixName base ext (probeIdx occupied base ext (occupied.length + 1) 1) ∉ occupied ∧
    ∀ j, 0 < j → j < probeIdx occupied base ext (occupied.length + 1) 1 →
      suffixName base ext j ∈ occupied := by
  obtain ⟨k, hk1, hk2, hkfree⟩ := exists_free_suffix occupied base ext
  have hex : ∃ j, j < occupied.length + 1 ∧ suffixName base ext (1 + j) ∉ occupied := by
    refine ⟨k - 1, by omega, ?_⟩
    have : 1 + (k - 1) = k := by omega
    rw [this]
    exact hkfree
  obtain ⟨hle, hf, hmin⟩ := probeIdx_spec occupied base ext (occupied.length + 1) 1 hex
  refine ⟨by omega, ?_, hf, fun j h1 h2 => hmin j (by omega) h2⟩
  unfold make_unique_path
  rw [if_pos h, probeFrom_eq_suffixName]

/-! ### Lemmas about the orchestrator -/

theorem processOne_dryRun_fs (service : Service) (fs : List PyStr) (src : PyStr) :
    (processOne true service fs src).2.1 = fs := by
  cases hsrv : service src with
  | error e => simp [processOne, hsrv]
  | ok sug =>
      by_cases h1 : sanitize_to_slug sug 40 = []
      · simp [processOne, hsrv, h1]
      · by_cases h2 : make_unique_path fs (sanitize_to_slug sug 40) (pySuffixLower src) = src
        · simp [processOne, hsrv, h1, h2]
        · simp [processOne, hsrv, h1, h2]

theorem processOne_no_renamed (service : Service) (fs : List PyStr) (src : PyStr)
    (s d : PyStr) : LogLine.renamed s d ∉ (processOne true service fs src).1 := by
  cases hsrv : service src with
  | error e => simp [processOne, hsrv]
  | ok sug =>
      by_cases h1 : sanitize_to_slug sug 40 = []
      · simp [processOne, hsrv, h1]
      · by_cases h2 : make_unique_path fs (sanitize_to_slug sug 40) (pySuffixLower src) = src
        · simp [processOne, hsrv, h1, h2]
        · simp [processOne, hsrv, h1, h2]

theorem processOne_no_skipEmpty (dryRun : Bool) (service : Service)
    (fs : List PyStr) (src : PyStr) (s : PyStr) :
    LogLine.skipEmpty s ∉ (processOne dryRun service fs src).1 := by
  cases hsrv : service src with
  | error e => simp [processOne, hsrv]
  | ok sug =>
      by_cases h1 : sanitize_to_slug sug 40 = []
      · exact absurd h1 (sanitize_ne_nil sug (by omega))
      · by_cases h2 : make_unique_path fs (sanitize_to_slug sug 40) (pySuffixLower src) = src
        · simp [processOne, hsrv, h1, h2]
        · cases dryRun <;> simp [processOne, hsrv, h1, h2]

theorem processOne_src (dryRun : Bool) (service : Service) (fs : List PyStr)
    (src : PyStr) : ∀ l ∈ (processOne dryRun service fs src).1, l.src = src := by
  cases hsrv : service src with
  | error e => simp [processOne, hsrv, LogLine.src]
  | ok sug =>
      by_cases h1 : sanitize_to_slug sug 40 = []
      · simp [processOne, hsrv, h1, LogLine.src]
      · by_cases h2 : make_unique_path fs (sanitize_to_slug sug 40) (pySuffixLower src) = src
        · simp [processOne, hsrv, h1, h2, LogLine.src]
        · cases dryRun <;> simp [processOne, hsrv, h1, h2, LogLine.src]

theorem processOne_ok_not_aborted (dryRun : Bool) (service : Service)
    (fs : List PyStr) (src : PyStr) (v : PyStr) (h : service src = .ok v) :
    (processOne dryRun service fs src).2.2 = false := by
  by_cases h1 : sanitize_to_slug v 40 = []
  · simp [processOne, h, h1]
  · by_cases h2 : make_unique_path fs (sanitize_to_slug v 40) (pySuffixLower src) = src
    · simp [processOne, h, h1, h2]
    · cases dryRun <;> simp [processOne, h, h1, h2]

theorem processOne_keeps_nonmatching (dryRun : Bool) (service : Service)
    (fs : List PyStr) (src name : PyStr) (hsrc : matchesPatterns src = true)
    (hname : matchesPatterns name = false) (hmem : name ∈ fs) :
    name ∈ (processOne dryRun service fs src).2.1 := by
  have hne : name ≠ src := fun h => by rw [h, hsrc] at hname; cases hname
  cases hsrv : service src with
  | error e => simpa [processOne, hsrv] using hmem
  | ok sug =>
      by_cases h1 : sanitize_to_slug sug 40 = []
      · simpa [processOne, hsrv, h1] using hmem
      · by_cases h2 : make_unique_path fs (sanitize_to_slug sug 40) (pySuffixLower src) = src
        · simpa [processOne, hsrv, h1, h2] using hmem
        · cases dryRun with
          | true => simpa [processOne, hsrv, h1, h2] using hmem
          | false =>
              have : name ∈ renameFs fs src
                  (make_unique_path fs (sanitize_to_slug sug 40) (pySuffixLower src)) :=
                List.mem_append.mpr (Or.inl ((List.mem_erase_of_ne hne).mpr hmem))
              simpa [processOne, hsrv, h1, h2] using this

theorem runLoop_dryRun_fs (service : Service) :
    ∀ (pics : List PyStr) (fs : List PyStr),
      (runLoop true service fs pics).2.1 = fs := by
  intro pics
  induction pics with
  | nil => intro fs; rfl
  | cons src rest ih =>
      intro fs
      rw [runLoop]
      split
      · exact processOne_dryRun_fs service fs src
      · simp only []
        rw [ih, processOne_dryRun_fs]

theorem runLoop_no_renamed (service : Service) :
    ∀ (pics : List PyStr) (fs : List PyStr) (s d : PyStr),
      LogLine.renamed s d ∉ (runLoop true service fs pics).1 := by
  intro pics
  induction pics with
  | nil => intro fs s d; simp [runLoop]
  | cons src rest ih =>
      intro fs s d
      rw [runLoop]
      split
      · exact processOne_no_renamed service fs src s d
      · simp only [List.mem_append]
        rintro (h | h)
        · exact processOne_no_renamed service fs src s d h
        · exact ih _ s d h

theorem runLoop_no_skipEmpty (dryRun : Bool) (service : Service) :
    ∀ (pics : List PyStr) (fs : List PyStr) (s : PyStr),
      LogLine.skipEmpty s ∉ (runLoop dryRun service fs pics).1 := by
  intro pics
  induction pics with
  | nil => intro fs s; simp [runLoop]
  | cons src rest ih =>
      intro fs s
      rw [runLoop]
      split
      · exact processOne_no_skipEmpty dryRun service fs src s
      · simp only [List.mem_append]
        rintro (h | h)
        · exact processOne_no_skipEmpty dryRun service fs src s h
        · exact ih _ s h

theorem runLoop_src (dryRun : Bool) (service : Service) :
    ∀ (pics : List PyStr) (fs : List PyStr),
      ∀ l ∈ (runLoop dryRun service fs pics).1, l.src ∈ pics := by
  intro pics
  induction pics with
  | nil => intro fs l hl; simp [runLoop] at hl
  | cons src rest ih =>
      intro fs l hl
      rw [runLoop] at hl
      split at hl
      · rw [processOne_src dryRun service fs src l hl]
        exact List.mem_cons_self _ _
      · simp only [List.mem_append] at hl
        rcases hl with h | h
        · rw [processOne_src dryRun service fs src l h]
          exact List.mem_cons_self _ _
        · exact List.mem_cons_of_mem _ (ih _ l h)

theorem runLoop_keeps_nonmatching (dryRun : Bool) (service : Service) :
    ∀ (pics : List PyStr) (fs : List PyStr) (name : PyStr),
      (∀ p ∈ pics, matchesPatterns p = true) → matchesPatterns name = false →
      name ∈ fs → name ∈ (runLoop dryRun service fs pics).2.1 := by
  intro pics
  induction pics with
  | nil => intro fs name _ _ hmem; exact hmem
  | cons src rest ih =>
      intro fs name hpics hname hmem
      have hsrc : matchesPatterns src = true := hpics src (List.mem_cons_self _ _)
      have hkeep := processOne_keeps_nonmatching dryRun service fs src name hsrc hname hmem
      rw [runLoop]
      split
      · exact hkeep
      · exact ih _ name (fun p hp => hpics p (List.mem_cons_of_mem _ hp)) hname hkeep

theorem runLoop_nil (dryRun : Bool) (service : Service) (fs : List PyStr) :
    runLoop dryRun service fs [] = ([], fs, false) := rfl

theorem runLoop_cons (dryRun : Bool) (service : Service) (fs : List PyStr)
    (src : PyStr) (rest : List PyStr) :
    runLoop dryRun service fs (src :: rest) =
      if (processOne dryRun service fs src).2.2 then processOne dryRun service fs src
      else ((processOne dryRun service fs src).1 ++
              (runLoop dryRun service (processOne dryRun service fs src).2.1 rest).1,
            (runLoop dryRun service (processOne dryRun service fs src).2.1 rest).2) := rfl

theorem runLoop_abort (dryRun : Bool) (service : Service) :
    ∀ (pre : List PyStr) (fs : List PyStr) (bad e : PyStr) (post : List PyStr),
      (∀ p ∈ pre, ∃ v, service p = .ok v) → service bad = .error e →
      runLoop dryRun service fs (pre ++ bad :: post) =
        ((runLoop dryRun service fs pre).1 ++ [LogLine.skipApi bad e],
         (runLoop dryRun service fs pre).2.1, true) := by
  intro pre
  induction pre with
  | nil =>
      intro fs bad e post _ hbad
      have hstep : processOne dryRun service fs bad = ([LogLine.skipApi bad e], fs, true) := by
        unfold processOne
        rw [hbad]
      simp [runLoop_cons, runLoop_nil, hstep]
  | cons p pre' ih =>
      intro fs bad e post hpre hbad
      obtain ⟨v, hv⟩ := hpre p (List.mem_cons_self _ _)
      have hab := processOne_ok_not_aborted dryRun service fs p v hv
      have hpre' : ∀ q ∈ pre', ∃ w, service q = .ok w :=
        fun q hq => hpre q (List.mem_cons_of_mem _ hq)
      rw [List.cons_append, runLoop_cons, runLoop_cons, hab]
      simp only [Bool.false_eq_true, if_false]
      rw [ih (processOne dryRun service fs p).2.1 bad e post hpre' hbad]
      simp [List.append_assoc]

theorem mem_insertSorted (a x : PyStr) :
    ∀ l, a ∈ insertSorted x l ↔ a = x ∨ a ∈ l := by
  intro l
  induction l with
  | nil => simp [insertSorted]
  | cons y ys ih =>
      rw [insertSorted]
      split
      · simp
      · simp only [List.mem_cons, ih]
        tauto

theorem mem_sortNames (a : PyStr) : ∀ l, a ∈ sortNames l ↔ a ∈ l := by
  intro l
  induction l with
  | nil => simp [sortNames]
  | cons x xs ih =>
      rw [sortNames, mem_insertSorted]
      simp [ih]

/-! ### Concrete scenarios from the specification -/

/-- The naming service of the end-to-end dry-run scenario: suggests
"Golden Retriever Puppy" for img1.png and the empty string for img2.jpg. -/
def demoService : Service := fun src =>
  if src = "img1.png".toList then Except.ok ("Golden Retriever Puppy".toList)
  else if src = "img2.jpg".toList then Except.ok []
  else Except.error ("no such file".toList)

/-- The directory of the end-to-end dry-run scenario. -/
def demoListing : List PyStr := ["img1.png".toList, "img2.jpg".toList]

/-- A service whose suggestion equals the stem of the only file. -/
def keepService : Service := fun _ => Except.ok ("cat".toList)

/-- A service that fails on a.png and succeeds elsewhere. -/
def errService : Service := fun src =>
  if src = "a.png".toList then Except.error ("boom".toList)
  else Except.ok ("dog".toList)

/-! ### Claim theorems -/

/-- C1, counterexample: the claim that the output of `sanitize_to_slug`
never has a trailing underscore is false: with the positive maximum length
2, `sanitize_to_slug "a b" 2` is the string "a_", which ends in an
underscore (truncation cuts the slug "a_b" after the underscore). -/
theorem sanitize_trailing_underscore_cex :
    0 < 2 ∧ sanitize_to_slug ("a b".toList) 2 = ['a', '_'] ∧
    (sanitize_to_slug ("a b".toList) 2).getLast? = some '_' :=
  ⟨by decide, by decide, by decide⟩

/-- C1, amended: for every input and positive maximum length, the output
of `sanitize_to_slug` contains only lowercase ASCII letters, digits and
underscores, has no leading underscore, and has length at most the
maximum; the slug before truncation also has no trailing underscore, but
truncation may leave one. -/
theorem sanitize_to_slug_invariants (text : PyStr) (max_length : Nat)
    (h : 0 < max_length) :
    (∀ c ∈ sanitize_to_slug text max_length, allowedChar c = true) ∧
    (∀ c, (sanitize_to_slug text max_length).head? = some c → c ≠ '_') ∧
    (sanitize_to_slug text max_length).length ≤ max_length ∧
    (∀ c, (slugCore text).head? = some c → c ≠ '_') ∧
    (∀ c, (slugCore text).getLast? = some c → c ≠ '_') := by
  refine ⟨?_, ?_, ?_, fun c hc => slugCore_head? hc, fun c hc => slugCore_getLast? hc⟩
  · intro c hc
    exact slugCore_chars ((List.take_sublist _ _).mem hc)
  · intro c hc
    rw [sanitize_to_slug, head?_take h] at hc
    exact slugCore_head? hc
  · rw [sanitize_to_slug, List.length_take]
    exact inf_le_left

/-- Witness for C1's amended theorem at a concrete input. -/
theorem sanitize_to_slug_invariants_witness :
    0 < 2 ∧ (sanitize_to_slug ("Cute Dog!! #1".toList) 2).length ≤ 2 :=
  ⟨by decide, (sanitize_to_slug_invariants ("Cute Dog!! #1".toList) 2 (by decide)).2.2.1⟩

/-- C2, counterexample: in the spec's dry-run scenario the service returns
the empty string for img2.jpg, yet the run prints a plan line renaming
img2.jpg to image.jpg — not a skip line. The suggested name sanitizes to
the fallback "image", never to empty, so the skip branch does not fire. -/
theorem empty_suggestion_not_skipped_cex :
    (mainRun true demoService demoListing).1 =
      [LogLine.plan ("img1.png".toList) ("golden_retriever_puppy.png".toList),
       LogLine.plan ("img2.jpg".toList) ("image.jpg".toList)] ∧
    LogLine.skipEmpty ("img2.jpg".toList) ∉ (mainRun true demoService demoListing).1 :=
  ⟨by decide, by decide⟩

/-- C2, amended: no suggested name ever sanitizes to empty (the sanitizer
falls back to "image"), so in every run the orchestrator never logs an
empty-suggestion skip line; a file whose suggestion is empty is planned or
renamed to a fallback-based name and the run continues. -/
theorem no_empty_suggestion_skip (dryRun : Bool) (service : Service)
    (listing : List PyStr) (s : PyStr) :
    LogLine.skipEmpty s ∉ (mainRun dryRun service listing).1 :=
  runLoop_no_skipEmpty dryRun service
    (sortNames (listing.filter matchesPatterns)) listing s

/-- Witness for C2's amended theorem at the dry-run scenario. -/
theorem no_empty_suggestion_skip_witness :
    LogLine.skipEmpty ("img2.jpg".toList) ∉ (mainRun true demoService demoListing).1 :=
  no_empty_suggestion_skip true demoService demoListing ("img2.jpg".toList)

/-- C3, counterexample: with the directory containing only cat.png and the
proposed name equal to the source's existing name, `make_unique_path`
returns cat-1.png rather than the source path, and the orchestrator plans
a rename instead of logging a keep line. -/
theorem keep_branch_unreachable_cex :
    make_unique_path ["cat.png".toList] ("cat".toList) (".png".toList) =
      "cat-1.png".toList ∧
    (mainRun true keepService ["cat.png".toList]).1 =
      [LogLine.plan ("cat.png".toList) ("cat-1.png".toList)] ∧
    LogLine.keep ("cat.png".toList) ∉ (mainRun true keepService ["cat.png".toList]).1 :=
  ⟨by decide, by decide, by decide⟩

/-- C3, amended: `make_unique_path` always returns a path that is not an
existing entry of the directory; in particular it never returns any
existing path, the source file's path included, so the orchestrator's keep
branch is unreachable when the source exists in the directory. -/
theorem make_unique_path_fresh (occupied : List PyStr) (base ext : PyStr) :
    make_unique_path occupied base ext ∉ occupied ∧
    ∀ src, src ∈ occupied → make_unique_path occupied base ext ≠ src := by
  refine ⟨make_unique_path_not_mem occupied base ext, ?_⟩
  intro src hsrc heq
  exact make_unique_path_not_mem occupied base ext (heq ▸ hsrc)

/-- Witness for C3's amended theorem at a concrete directory. -/
theorem make_unique_path_fresh_witness :
    make_unique_path ["cat.png".toList] ("cat".toList) (".png".toList) ≠
      "cat.png".toList :=
  (make_unique_path_fresh ["cat.png".toList] ("cat".toList) (".png".toList)).2
    ("cat.png".toList) (by decide)

/-- C4: `make_unique_path` returns base ++ ext when that name is
unoccupied, and otherwise the name with the smallest positive numeric
suffix whose name is unoccupied; in particular with cat.png present, base
cat yields cat-1.png, and with cat.png and cat-1.png present, cat-2.png. -/
theorem make_unique_path_minimal (occupied : List PyStr) (base ext : PyStr) :
    (base ++ ext ∉ occupied → make_unique_path occupied base ext = base ++ ext) ∧
    (base ++ ext ∈ occupied →
      0 < probeIdx occupied base ext (occupied.length + 1) 1 ∧
      make_unique_path occupied base ext =
        suffixName base ext (probeIdx occupied base ext (occupied.length + 1) 1) ∧
      suffixName base ext (probeIdx occupied base ext (occupied.length + 1) 1) ∉
        occupied ∧
      ∀ j, 0 < j → j < probeIdx occupied base ext (occupied.length + 1) 1 →
        suffixName base ext j ∈ occupied) ∧
    make_unique_path ["cat.png".toList] ("cat".toList) (".png".toList) =
      "cat-1.png".toList ∧
    make_unique_path ["cat.png".toList, "cat-1.png".toList] ("cat".toList)
      (".png".toList) = "cat-2.png".toList := by
  refine ⟨?_, make_unique_path_probe occupied base ext, by decide, by decide⟩
  intro h
  unfold make_unique_path
  rw [if_neg h]

/-- Witness for C4 at concrete directories, discharging both membership
hypotheses. -/
theorem make_unique_path_minimal_witness :
    make_unique_path [] ("cat".toList) (".png".toList) =
      "cat".toList ++ ".png".toList ∧
    make_unique_path ["cat.png".toList] ("cat".toList) (".png".toList) =
      suffixName ("cat".toList) (".png".toList)
        (probeIdx ["cat.png".toList] ("cat".toList) (".png".toList) 2 1) :=
  ⟨(make_unique_path_minimal [] ("cat".toList) (".png".toList)).1 (by decide),
   ((make_unique_path_minimal ["cat.png".toList] ("cat".toList) (".png".toList)).2.1
      (by decide)).2.1⟩

/-- C5: `sanitize_to_slug` on "" and on "   " yields the fallback "image",
and for every input text the returned slug is never empty. -/
theorem sanitize_to_slug_never_empty :
    sanitize_to_slug ("".toList) 40 = "image".toList ∧
    sanitize_to_slug ("   ".toList) 40 = "image".toList ∧
    ∀ text : PyStr, sanitize_to_slug text 40 ≠ [] :=
  ⟨by decide, by decide, fun text => sanitize_ne_nil text (by omega)⟩

/-- Witness for C5 at a concrete input. -/
theorem sanitize_to_slug_never_empty_witness :
    sanitize_to_slug ("!!!".toList) 40 ≠ [] :=
  sanitize_to_slug_never_empty.2.2 ("!!!".toList)

/-- C6: with the dry-run flag set, a run performs no filesystem mutation:
the directory's listing is identical before and after, and no renamed line
is ever printed (only plans). -/
theorem dry_run_no_mutation (service : Service) (listing : List PyStr) :
    (mainRun true service listing).2.1 = listing ∧
    ∀ s d, LogLine.renamed s d ∉ (mainRun true service listing).1 :=
  ⟨runLoop_dryRun_fs service (sortNames (listing.filter matchesPatterns)) listing,
   fun s d => runLoop_no_renamed service
     (sortNames (listing.filter matchesPatterns)) listing s d⟩

/-- Witness for C6 at the dry-run scenario. -/
theorem dry_run_no_mutation_witness :
    (mainRun true demoService demoListing).2.1 = demoListing :=
  (dry_run_no_mutation demoService demoListing).1

/-- C7: if the service fails on a file, the run logs the error line for
that file, aborts (the exception is re-raised), and leaves the directory
and logs exactly as they were after the files before it — the files after
the failing one are never processed or renamed. -/
theorem service_error_aborts (dryRun : Bool) (service : Service)
    (listing pre post : List PyStr) (bad e : PyStr)
    (hsort : sortNames (listing.filter matchesPatterns) = pre ++ bad :: post)
    (hpre : ∀ p ∈ pre, ∃ v, service p = .ok v)
    (hbad : service bad = .error e) :
    mainRun dryRun service listing =
      ((runLoop dryRun service listing pre).1 ++ [LogLine.skipApi bad e],
       (runLoop dryRun service listing pre).2.1, true) := by
  unfold mainRun
  rw [hsort]
  exact runLoop_abort dryRun service pre listing bad e post hpre hbad

/-- Witness for C7: a run over a.png (service fails) and b.png aborts at
a.png and never touches b.png. -/
theorem service_error_aborts_witness :
    mainRun false errService ["a.png".toList, "b.png".toList] =
      ((runLoop false errService ["a.png".toList, "b.png".toList] []).1 ++
        [LogLine.skipApi ("a.png".toList) ("boom".toList)],
       (runLoop false errService ["a.png".toList, "b.png".toList] []).2.1, true) :=
  service_error_aborts false errService ["a.png".toList, "b.png".toList] []
    ["b.png".toList] ("a.png".toList) ("boom".toList) (by decide)
    (fun p hp => absurd hp (List.not_mem_nil p)) rfl

/-- C8: path resolution is deterministic and idempotent under dry-run: a
dry-run iteration leaves the directory state unchanged, so invoking
`make_unique_path` again with the same base name and extension, with no
rename performed in between, returns the identical destination. -/
theorem make_unique_path_idempotent (service : Service) (fs : List PyStr)
    (src base ext : PyStr) :
    (processOne true service fs src).2.1 = fs ∧
    make_unique_path (processOne true service fs src).2.1 base ext =
      make_unique_path fs base ext := by
  have h := processOne_dryRun_fs service fs src
  exact ⟨h, by rw [h]⟩

/-- Witness for C8 at concrete inputs. -/
theorem make_unique_path_idempotent_witness :
    (processOne true demoService demoListing ("img1.png".toList)).2.1 = demoListing ∧
    make_unique_path (processOne true demoService demoListing ("img1.png".toList)).2.1
        ("cat".toList) (".png".toList) =
      make_unique_path demoListing ("cat".toList) (".png".toList) :=
  make_unique_path_idempotent demoService demoListing ("img1.png".toList)
    ("cat".toList) (".png".toList)

/-- C9: for every finite directory state there is a positive suffix index,
at most one more than the number of entries, whose name is unoccupied, so
the probing loop of `make_unique_path` terminates and its result is never
an occupied name. -/
theorem make_unique_path_terminates (occupied : List PyStr) (base ext : PyStr) :
    (∃ k, 0 < k ∧ k ≤ occupied.length + 1 ∧ suffixName base ext k ∉ occupied) ∧
    make_unique_path occupied base ext ∉ occupied := by
  obtain ⟨k, h1, h2, h3⟩ := exists_free_suffix occupied base ext
  exact ⟨⟨k, by omega, h2, h3⟩, make_unique_path_not_mem occupied base ext⟩

/-- Witness for C9 at a concrete directory. -/
theorem make_unique_path_terminates_witness :
    make_unique_path ["cat.png".toList] ("cat".toList) (".png".toList) ∉
      ["cat.png".toList] :=
  (make_unique_path_terminates ["cat.png".toList] ("cat".toList) (".png".toList)).2

/-- C10: only files matching the exact lowercase patterns are enumerated:
a name that matches none of them — such as photo.PNG or photo.Jpg — is
never among the processed pictures, no log line reports on it, and it is
still in the directory at the end of any run. -/
theorem lowercase_patterns_only (dryRun : Bool) (service : Service)
    (listing : List PyStr) (name : PyStr) (h : matchesPatterns name = false) :
    name ∉ sortNames (listing.filter matchesPatterns) ∧
    (∀ l ∈ (mainRun dryRun service listing).1, l.src ≠ name) ∧
    (name ∈ listing → name ∈ (mainRun dryRun service listing).2.1) ∧
    matchesPatterns ("photo.PNG".toList) = false ∧
    matchesPatterns ("photo.Jpg".toList) = false := by
  have hpics : ∀ p ∈ sortNames (listing.filter matchesPatterns),
      matchesPatterns p = true := by
    intro p hp
    exact (List.mem_filter.mp ((mem_sortNames p _).mp hp)).2
  refine ⟨?_, ?_, ?_, by decide, by decide⟩
  · intro hmem
    rw [hpics name hmem] at h
    cases h
  · intro l hl heq
    have hsrc := runLoop_src dryRun service
      (sortNames (listing.filter matchesPatterns)) listing l hl
    rw [heq] at hsrc
    have := hpics name hsrc
    rw [this] at h
    cases h
  · intro hmem
    exact runLoop_keeps_nonmatching dryRun service
      (sortNames (listing.filter matchesPatterns)) listing name hpics h hmem

/-- Witness for C10: photo.PNG in a directory beside img1.png is not
enumerated and survives a run untouched. -/
theorem lowercase_patterns_only_witness :
    "photo.PNG".toList ∉
      sortNames ((["photo.PNG".toList, "img1.png".toList]).filter matchesPatterns) ∧
    "photo.PNG".toList ∈
      (mainRun true demoService ["photo.PNG".toList, "img1.png".toList]).2.1 :=
  ⟨(lowercase_patterns_only true demoService
      ["photo.PNG".toList, "img1.png".toList] ("photo.PNG".toList) (by decide)).1,
   (lowercase_patterns_only true demoService
      ["photo.PNG".toList, "img1.png".toList] ("photo.PNG".toList)
      (by decide)).2.2.1 (by decide)⟩

end MojiNamer
